import Mathlib

/-!
Verification of the casper resolution engine (`src/component.ts`,
`src/schema/index.ts`).

Shallow embedding notes:
* JavaScript objects are modelled as insertion-ordered association lists
  `List (String × α)` with unique keys (JS objects cannot hold duplicate
  properties); `aset` updates in place or appends, `aerase` models `delete`.
* Facet payloads are modelled by the small inductive `Value`; the JS
  `undefined` sentinel is `Option.none` at the points the source
  distinguishes it (`getData`/`process` results).
* Hooks (`trigger`/`getData`/`process`/`transform`) are arbitrary Lean
  functions of the resolution context returning `Except String _`; a thrown
  JS exception is the `.error` case.  A custom `transform` is modelled as
  returning the updated parent entity (the source's default and all engine
  behaviour touch only `ctx.parent`); direct mutation of other manifest
  entries by a hook is outside this model.  The `components` field of the
  source context is omitted (it would make `Component` and `Ctx` mutually
  recursive and no engine logic reads it).
* The process-global registry and error accumulator are passed explicitly:
  `Component.all`/`Component.dependencies` take the registered list, and
  `resolveEntities` takes the initial state of the error accumulator.
-/

inductive Value where
  | str : String → Value
  | nat : Nat → Value
deriving DecidableEq, Repr

/-- Stringification used where JS coerces a value to a property key or
interpolates it into a template literal. -/
def Value.toKeyStr : Value → String
  | .str s => s
  | .nat n => toString n

abbrev EntityData := List (String × Value)

abbrev Entity := List (String × Value)

abbrev Manifest := List (String × Entity)

abbrev ErrorMap := List (String × List String)

abbrev PassedMap := List (String × List String)

/-- Property lookup on a JS object modelled as an association list. -/
def alookup {α : Type} : List (String × α) → String → Option α
  | [], _ => none
  | p :: rest, k => if p.1 = k then some p.2 else alookup rest k

/-- Property assignment: update an existing key in place, else append. -/
def aset {α : Type} : List (String × α) → String → α → List (String × α)
  | [], k, v => [(k, v)]
  | p :: rest, k, v => if p.1 = k then (k, v) :: rest else p :: aset rest k v

/-- Property deletion (`delete o[k]`).  On a unique-key list this removes
the single entry with key `k`. -/
def aerase {α : Type} : List (String × α) → String → List (String × α)
  | [], _ => []
  | p :: rest, k => if p.1 = k then aerase rest k else p :: aerase rest k

/-- The `k in o` test of JS. -/
def ahasKey {α : Type} (l : List (String × α)) (k : String) : Bool :=
  (alookup l k).isSome

/-- The key list of a JS object. -/
def akeys {α : Type} (l : List (String × α)) : List String :=
  l.map Prod.fst

/-- The `e.id` diagnostic string of a raw record (`${undefined}` is
`"undefined"` in JS). -/
def idStr (e : EntityData) : String :=
  match alookup e "id" with
  | some v => v.toKeyStr
  | none => "undefined"

/-- The `e.name` diagnostic string of a raw record. -/
def nameStr (e : EntityData) : String :=
  match alookup e "name" with
  | some v => v.toKeyStr
  | none => "undefined"

/-- The `error(key, err)` accumulator of `schema/index.ts`: ensure a list
exists under `key`, then concatenate the (single, already stringified)
error onto it.  A fresh key is created at the end of the object. -/
def errAdd (errs : ErrorMap) (k : String) (msg : String) : ErrorMap :=
  match alookup errs k with
  | some l => aset errs k (l ++ [msg])
  | none => errs ++ [(k, [msg])]

/-- The resolution context handed to every hook (`Component.Context`).
The source's `components` field is omitted (see file header). -/
structure Ctx where
  entities : List (String × EntityData)
  manifest : Manifest
  passed : PassedMap
  parent : Entity
  id : String
  data : EntityData

/-- A registered component (the `Component` interface).  Optional fields
carry the source's defaults (`undefined` array/flag behaves as empty/false
everywhere the engine reads them). -/
structure Component where
  KEY : String
  REQUIRES : List String := []
  OPTIONAL : List String := []
  SUPPRESS_TYPE : Bool := false
  HOIST : Bool := false
  SINK : Bool := false
  WAIT_FOR : List String := []
  trigger : Option (Ctx → Except String Bool) := none
  getData : Option (Ctx → Except String (Option Value)) := none
  process : Option (Option Value → Ctx → Except String (Option Value)) := none
  transform : Option (Value → Ctx → Except String Entity) := none

/-- `Array.from(new Set(xs))`: deduplicate keeping first occurrences. -/
def dedupFirst (seen : List String) : List String → List String
  | [] => []
  | x :: xs => if x ∈ seen then dedupFirst seen xs else x :: dedupFirst (x :: seen) xs

/-- `Component.dependencies`: the dependency set of `c` over the registered
list `comps` — `WAIT_FOR`, `REQUIRES`, the keys of all hoisted components
when `c` is not hoisted, and the keys of all non-sunk components when `c`
is sunk, deduplicated. -/
def Component.dependencies (comps : List Component) (c : Component) : List String :=
  let wait_for := c.WAIT_FOR
  let requires := c.REQUIRES
  let hoists := if c.HOIST then [] else (comps.filter (fun x => x.HOIST)).map Component.KEY
  let sinks := if c.SINK then (comps.filter (fun x => !x.SINK)).map Component.KEY else []
  dedupFirst [] (wait_for ++ requires ++ hoists ++ sinks)

/-- One sweep of the inner `for (var m of _list)` loop of `Component.all`
after popping a node with key `key`: every pending node containing `key`
in its remaining dependency list has it spliced out; nodes whose list
becomes empty are freed (in `_list` order, as in the source).  Nodes whose
dependency list is already empty (those in `no_edges` or `out`) are
untouched by the source loop, so only pending nodes are threaded here. -/
def removeDepAll (key : String) : List (Component × List String) → List (Component × List String) × List Component
  | [] => ([], [])
  | q :: rest =>
    let pf := removeDepAll key rest
    if key ∈ q.2 then
      let dep := q.2.erase key
      if dep.isEmpty then (pf.1, q.1 :: pf.2) else ((q.1, dep) :: pf.1, pf.2)
    else (q :: pf.1, pf.2)

/-- The `while (no_edges.length > 0)` loop of `Component.all`, fuelled.
`no_edges.pop()` takes the most recently pushed node (`getLast`), newly
freed nodes are appended.  Each iteration moves exactly one node out of
`pending ++ noEdges`, so fuel equal to that total length reproduces the
source loop exactly: fuel reaches `0` only when `noEdges` is empty. -/
def kahnLoop : Nat → List (Component × List String) → List Component → List Component → List Component
  | 0, _, _, out => out
  | fuel + 1, pending, noEdges, out =>
    match noEdges.getLast? with
    | none => out
    | some n =>
      let rest := noEdges.dropLast
      let pf := removeDepAll n.KEY pending
      kahnLoop fuel pf.1 (rest ++ pf.2) (out ++ [n])

/-- `Component.all()`: topological order of the registered components by
source-removal (Kahn) with the source's pop-from-the-end tie-break.
Components whose dependency list never empties (cycles, or dependencies on
unregistered keys) are silently absent from the result, as in the source. -/
def Component.all (comps : List Component) : List Component :=
  let nodes := comps.map (fun c => (c, Component.dependencies comps c))
  let noEdges := (nodes.filter (fun q => q.2.isEmpty)).map Prod.fst
  let pending := nodes.filter (fun q => !q.2.isEmpty)
  kahnLoop comps.length pending noEdges []

/-- The trigger actually run: the hook, or the default `KEY in data`. -/
def triggerOf (c : Component) : Ctx → Except String Bool :=
  match c.trigger with
  | some f => f
  | none => fun x => .ok (ahasKey x.data c.KEY)

/-- The data extractor actually run: the hook, or `data[KEY]`. -/
def getDataOf (c : Component) : Ctx → Except String (Option Value) :=
  match c.getData with
  | some f => f
  | none => fun x => .ok (alookup x.data c.KEY)

/-- The processor actually run: the hook, or the identity passthrough. -/
def processOf (c : Component) : Option Value → Ctx → Except String (Option Value) :=
  match c.process with
  | some f => f
  | none => fun d _ => .ok d

/-- The transformer actually run: the hook, or assignment at
`parent[KEY]`. -/
def transformOf (c : Component) : Value → Ctx → Except String Entity :=
  match c.transform with
  | some f => f
  | none => fun o x => .ok (aset x.parent c.KEY o)

/-- `ctx.passed[c.KEY].push(ctx.id)`.  When the key is missing the source
calls `.push` on `undefined`, a thrown `TypeError`. -/
def passedPush (passed : PassedMap) (key : String) (id : String) : Except String PassedMap :=
  match alookup passed key with
  | some l => .ok (aset passed key (l ++ [id]))
  | none => .error "TypeError: Cannot read properties of undefined (reading 'push')"

/-- The requirement-violation message thrown by `Component.resolve`. -/
def reqMsg (id r cKey : String) : String :=
  id ++ " does not contain \"" ++ r ++ "\", which is a requirement for \"" ++ cKey ++ "\""

/-- The `c.REQUIRES?.forEach` check: for each required key, the current
entity id must already be in that key's passed list.  A missing passed
list is `undefined.includes`, a thrown `TypeError`. -/
def checkRequires (cKey : String) (passed : PassedMap) (id : String) : List String → Except String Unit
  | [] => .ok ()
  | r :: rs =>
    match alookup passed r with
    | none => .error "TypeError: Cannot read properties of undefined (reading 'includes')"
    | some l =>
      if id ∈ l then checkRequires cKey passed id rs
      else .error (reqMsg id r cKey)

/-- `Component.resolve(c, ctx)`: run the trigger; on success record the
entity in the passed-set (line 140 of the source, before the requirement
check), check `REQUIRES`, extract, process, and — when the processed value
is not `undefined` — transform.  The result carries the updated passed-set
and parent entity; `.error` is a thrown exception. -/
def Component.resolve (c : Component) (ctx : Ctx) : Except String (PassedMap × Entity) :=
  match triggerOf c ctx with
  | .error e => .error e
  | .ok false => .ok (ctx.passed, ctx.parent)
  | .ok true =>
    match passedPush ctx.passed c.KEY ctx.id with
    | .error e => .error e
    | .ok passed1 =>
      let ctx1 := { ctx with passed := passed1 }
      match checkRequires c.KEY passed1 ctx1.id c.REQUIRES with
      | .error e => .error e
      | .ok _ =>
        match getDataOf c ctx1 with
        | .error e => .error e
        | .ok cData =>
          match processOf c cData ctx1 with
          | .error e => .error e
          | .ok (some o) =>
            match transformOf c o ctx1 with
            | .error e => .error e
            | .ok parent1 => .ok (passed1, parent1)
          | .ok none => .ok (passed1, ctx1.parent)

/-- The mutable state of `resolveEntities`: the working id→record map `d`,
the in-progress manifest `out`, the passed-sets, and the error
accumulator. -/
structure RState where
  d : List (String × EntityData)
  out : Manifest
  passed : PassedMap
  errors : ErrorMap

/-- One `(component, entity)` step of the resolver's inner loop: build the
context, run `Component.resolve`, and on a thrown error record it under
the entity's id, delete the entity from the manifest and the working map,
and splice its id out of every passed list. -/
def entityStep (comp : Component) (st : RState) (k : String) : RState :=
  match alookup st.out k, alookup st.d k with
  | some parent, some data =>
    match Component.resolve comp ⟨st.d, st.out, st.passed, parent, k, data⟩ with
    | .ok pr => { st with passed := pr.1, out := aset st.out k pr.2 }
    | .error msg =>
      { d := aerase st.d k
        out := aerase st.out k
        passed := st.passed.map (fun p => (p.1, p.2.erase k))
        errors := errAdd st.errors k msg }
  | _, _ => st

/-- One pass of the resolver's outer loop: initialise `passed[comp.KEY]`,
snapshot the manifest's ids (`Object.entries(out)`), and run `entityStep`
for each id of the snapshot. -/
def componentPass (comp : Component) (st : RState) : RState :=
  let st1 := { st with passed := aset st.passed comp.KEY [] }
  (akeys st1.out).foldl (entityStep comp) st1

/-- Run all component passes in order. -/
def runComponents (order : List Component) (st : RState) : RState :=
  order.foldl (fun s c => componentPass c s) st

/-- The duplicate-id message of `resolveEntities` (later record first, as
in the template literal). -/
def dupMsg (i : String) (later first : EntityData) : String :=
  "Duplicate id " ++ i ++ "\n" ++ nameStr later ++ "\n" ++ nameStr first

/-- The initial dedup loop of `resolveEntities`: first record for an id
wins, a later duplicate is discarded with an error naming both records'
names. -/
def dedupRecords (acc : List (String × EntityData)) (errs : ErrorMap) : List EntityData → List (String × EntityData) × ErrorMap
  | [] => (acc, errs)
  | e :: rest =>
    let i := idStr e
    match alookup acc i with
    | some prev => dedupRecords acc (errAdd errs i (dupMsg i e prev)) rest
    | none => dedupRecords (acc ++ [(i, e)]) errs rest

/-- `resolveEntities(ent)`: deduplicate the raw records, seed an empty
entity per surviving id, and run every registered component (in
`Component.all` order) over every live entity.  The process-global error
accumulator is threaded explicitly as `errs0`. -/
def resolveEntities (comps : List Component) (ents : List EntityData) (errs0 : ErrorMap) : Manifest × ErrorMap :=
  let de := dedupRecords [] errs0 ents
  let st0 : RState := ⟨de.1, de.1.map (fun p => (p.1, [])), [], de.2⟩
  let fin := runComponents (Component.all comps) st0
  (fin.out, fin.errors)

/-- Orderedness of a component list: every dependency key of an element is
the key of an earlier element. -/
def ordered (comps : List Component) (out : List Component) : Prop :=
  ∀ j : Nat, ∀ hj : j < out.length, ∀ k ∈ Component.dependencies comps (out.get ⟨j, hj⟩),
    ∃ i : Nat, ∃ hi : i < out.length, i < j ∧ (out.get ⟨i, hi⟩).KEY = k

/-- An entity id fully evicted from a resolver state: absent from the
manifest, from the working record map, and from every passed list. -/
def evicted (st : RState) (k : String) : Prop :=
  alookup st.out k = none ∧ alookup st.d k = none ∧ ∀ p ∈ st.passed, k ∉ p.2

/-- Direct dependency between registered components: `d` waits on `c`'s
key. -/
def DepOn (comps : List Component) (d c : Component) : Prop :=
  c ∈ comps ∧ c.KEY ∈ Component.dependencies comps d

/-- Two components requiring each other: the cycle fixture. -/
def cycA : Component := { KEY := "a", REQUIRES := ["b"] }

def cycB : Component := { KEY := "b", REQUIRES := ["a"] }

/-- A component with every hook left to its default. -/
def briefComp : Component := { KEY := "brief" }

def recX : EntityData := [("id", Value.str "x"), ("brief", Value.str "short text")]

def recY : EntityData := [("id", Value.str "y")]

def recFirst : EntityData := [("id", Value.str "a"), ("name", Value.str "First"), ("brief", Value.str "hi")]

def recSecond : EntityData := [("id", Value.str "a"), ("name", Value.str "Second")]

/-- A component whose `REQUIRES` names its own key. -/
def selfC : Component := { KEY := "a", REQUIRES := ["a"] }

def datSelf : EntityData := [("id", Value.str "x"), ("a", Value.str "v")]

def ctxSelf : Ctx := ⟨[("x", datSelf)], [("x", [])], [("a", [])], [], "x", datSelf⟩

def hoistC : Component := { KEY := "h", HOIST := true }

def plainC : Component := { KEY := "n" }

def sinkC : Component := { KEY := "s", SINK := true }

def depA : Component := { KEY := "a" }

def depB : Component := { KEY := "b", REQUIRES := ["a"] }

/-- A component requiring a facet whose component never triggers. -/
def weaponC : Component := { KEY := "w", REQUIRES := ["dmg"] }

def dmgC : Component := { KEY := "dmg" }

def swordRec : EntityData := [("id", Value.str "sword"), ("w", Value.str "x")]

/-- A component depending on a key no registered component carries. -/
def ghostC : Component := { KEY := "g", REQUIRES := ["ghost"] }

def afterGhostC : Component := { KEY := "k", WAIT_FOR := ["g"] }

/-- A component whose custom trigger fires though its key is absent, so
the default extraction yields the absent sentinel. -/
def alwaysC : Component := { KEY := "p", trigger := some (fun _ => .ok true) }

def stAlways : RState := ⟨[("x", recY)], [("x", [])], [("p", [])], []⟩

/-- The resolver state at the start of `weaponC`'s pass over the sword
record: `dmgC` ran first (its trigger never fired) per the topological
order of `[weaponC, dmgC]`. -/
def stSword : RState := ⟨[("sword", swordRec)], [("sword", [])], [("dmg", []), ("w", [])], []⟩

theorem alookup_aset_self {α : Type} (l : List (String × α)) (k : String) (v : α) :
    alookup (aset l k v) k = some v := by
  induction l with
  | nil => simp [aset, alookup]
  | cons p rest ih =>
    by_cases h : p.1 = k
    · simp [aset, h, alookup]
    · simp [aset, h, alookup, ih]

theorem alookup_aset_ne {α : Type} (l : List (String × α)) (k k' : String) (v : α)
    (h : k' ≠ k) : alookup (aset l k v) k' = alookup l k' := by
  induction l with
  | nil => simp [aset, alookup, Ne.symm h]
  | cons p rest ih =>
    by_cases hp : p.1 = k
    · simp only [aset, hp, if_pos, alookup]
      rw [if_neg (Ne.symm h), if_neg (Ne.symm h)]
    · simp only [aset, hp, if_neg, ite_false, alookup, ih]

theorem aset_eq_of_alookup {α : Type} (l : List (String × α)) (k : String) (v : α)
    (h : alookup l k = some v) : aset l k v = l := by
  induction l with
  | nil => simp [alookup] at h
  | cons p rest ih =>
    by_cases hp : p.1 = k
    · simp [alookup, hp] at h
      simp only [aset, hp, if_pos]
      rw [← hp, ← h]
    · simp [alookup, hp] at h
      simp [aset, hp, ih h]

theorem checkRequires_ok (cKey : String) (passed : PassedMap) (id : String)
    (rs : List String)
    (h : ∀ r ∈ rs, ∃ l, alookup passed r = some l ∧ id ∈ l) :
    checkRequires cKey passed id rs = .ok () := by
  induction rs with
  | nil => rfl
  | cons r rest ih =>
    obtain ⟨l, hl, hid⟩ := h r (by simp)
    simp only [checkRequires, hl, hid, if_pos]
    exact ih (fun r' hr' => h r' (by simp [hr']))

/-- C1: With two components each listing the other's KEY in REQUIRES,
`Component.all` returns an order that silently omits both — no error or
report is produced — and the resolver then processes entities with no
components at all instead of aborting.  This evaluates the code at the
failing input of the claim, which demands a loud failure. -/
theorem cycle_silently_dropped :
    Component.all [cycA, cycB] = []
    ∧ (resolveEntities [cycA, cycB] [recY] []).2 = []
    ∧ alookup (resolveEntities [cycA, cycB] [recY] []).1 "y" = some [] := by
  exact ⟨rfl, by decide, by decide⟩

/-- C2 counterexample: for the two-component cycle, `cycB`'s REQUIRES
contains `cycA`'s KEY, yet the order computed by `Component.all` contains
neither component at any pair of positions — the claim's "A strictly
before B" fails because both are silently dropped. -/
theorem order_claim_fails_on_cycle :
    cycA.KEY ∈ cycB.REQUIRES
    ∧ ¬ ∃ i j : Nat, i < j ∧ (Component.all [cycA, cycB])[i]? = some cycA
        ∧ (Component.all [cycA, cycB])[j]? = some cycB := by
  refine ⟨by decide, ?_⟩
  rintro ⟨i, j, -, hi, -⟩
  rw [show Component.all [cycA, cycB] = [] from rfl] at hi
  simp at hi

/-- C4 counterexample: the error accumulator is process-global state that
`resolveEntities` never clears, so running the resolver twice in
succession on a record sequence containing a duplicate id leaves the
second run's error map with the duplicate-id message recorded twice — the
two runs' error maps are not identical. -/
theorem second_run_error_map_differs :
    (resolveEntities [briefComp] [recFirst, recSecond]
        (resolveEntities [briefComp] [recFirst, recSecond] []).2).2
      ≠ (resolveEntities [briefComp] [recFirst, recSecond] []).2 := by
  decide

/-- C5 counterexample: `Component.resolve` records the entity in the
passed-set (source line 140) before the REQUIRES check (lines 143-146),
so a component whose REQUIRES contains its own KEY, run on an entity
whose trigger fires with no prior pass recorded, succeeds — it does not
fail with a requirement violation as the claim states. -/
theorem self_require_succeeds :
    selfC.REQUIRES = [selfC.KEY]
    ∧ alookup ctxSelf.passed selfC.KEY = some []
    ∧ Component.resolve selfC ctxSelf
        = .ok ([("a", ["x"])], [("a", Value.str "v")]) := by
  exact ⟨rfl, rfl, rfl⟩

/-- C5 (amended): the record pass happens before the requirement check,
so the check sees the entity's own just-recorded id; consequently, for a
default-hook component each required key that is the component's own KEY
is always satisfied, and resolution succeeds whenever every other
required key has already passed — in particular a self-requiring
component succeeds rather than failing. -/
theorem record_pass_precedes_requirement_check
    (c : Component) (ctx : Ctx) (v : Value) (l : List String)
    (htr : c.trigger = none) (hgd : c.getData = none)
    (hpr : c.process = none) (htf : c.transform = none)
    (hdata : alookup ctx.data c.KEY = some v)
    (hp : alookup ctx.passed c.KEY = some l)
    (hreq : ∀ r ∈ c.REQUIRES, r = c.KEY ∨ ctx.id ∈ (alookup ctx.passed r).getD []) :
    Component.resolve c ctx =
      .ok (aset ctx.passed c.KEY (l ++ [ctx.id]), aset ctx.parent c.KEY v) := by
  have htrig : triggerOf c ctx = .ok true := by
    simp [triggerOf, htr, ahasKey, hdata]
  have hpush : passedPush ctx.passed c.KEY ctx.id
      = .ok (aset ctx.passed c.KEY (l ++ [ctx.id])) := by
    simp [passedPush, hp]
  have hcheck : checkRequires c.KEY (aset ctx.passed c.KEY (l ++ [ctx.id]))
      ctx.id c.REQUIRES = .ok () := by
    apply checkRequires_ok
    intro r hr
    rcases hreq r hr with h | h
    · exact ⟨l ++ [ctx.id], by rw [h]; exact alookup_aset_self _ _ _, by simp⟩
    · rcases hmem : alookup ctx.passed r with - | l'
      · rw [hmem] at h; simp at h
      · rw [hmem] at h
        by_cases hrk : r = c.KEY
        · exact ⟨l ++ [ctx.id], by rw [hrk]; exact alookup_aset_self _ _ _, by simp⟩
        · exact ⟨l', by rw [alookup_aset_ne _ _ _ _ hrk]; exact hmem, by simpa using h⟩
  simp [Component.resolve, htrig, hpush, hcheck, getDataOf, hgd, hdata,
    processOf, hpr, transformOf, htf]

/-- C5 amended-claim witness at a concrete self-requiring component. -/
theorem record_pass_precedes_requirement_check_witness :
    Component.resolve selfC ctxSelf
      = .ok (aset ctxSelf.passed selfC.KEY ([] ++ [ctxSelf.id]),
          aset ctxSelf.parent selfC.KEY (Value.str "v")) :=
  record_pass_precedes_requirement_check selfC ctxSelf (Value.str "v") []
    rfl rfl rfl rfl (by decide) (by decide)
    (by intro r hr; left; simpa [selfC] using hr)

/-- C8: a component with no custom hooks and KEY "brief", resolved over
the record with id "x" and a "brief" facet, yields a manifest whose entry
for "x" carries that facet's raw value unchanged at the component's key. -/
theorem passthrough_default :
    ((alookup (resolveEntities [briefComp] [recX] []).1 "x").bind
        (fun ent => alookup ent "brief")) = some (Value.str "short text") := by
  decide

/-- C9: when the process step yields the absent sentinel (`undefined`),
`Component.resolve` succeeds without invoking the transform — the parent
entity is returned exactly as it was — and the resolver step leaves the
manifest, record map and error map untouched (the entity is not evicted);
only the trigger's passed-set record remains. -/
theorem process_none_no_write
    (comp : Component) (st : RState) (k : String) (parent : Entity) (data : EntityData)
    (l : List String) (v : Option Value)
    (hout : alookup st.out k = some parent)
    (hd : alookup st.d k = some data)
    (htrig : triggerOf comp ⟨st.d, st.out, st.passed, parent, k, data⟩ = .ok true)
    (hp : alookup st.passed comp.KEY = some l)
    (hreq : checkRequires comp.KEY (aset st.passed comp.KEY (l ++ [k])) k comp.REQUIRES = .ok ())
    (hget : getDataOf comp ⟨st.d, st.out, aset st.passed comp.KEY (l ++ [k]), parent, k, data⟩ = .ok v)
    (hproc : processOf comp v ⟨st.d, st.out, aset st.passed comp.KEY (l ++ [k]), parent, k, data⟩ = .ok none) :
    Component.resolve comp ⟨st.d, st.out, st.passed, parent, k, data⟩
      = .ok (aset st.passed comp.KEY (l ++ [k]), parent)
    ∧ entityStep comp st k = { st with passed := aset st.passed comp.KEY (l ++ [k]) } := by
  have hpush : passedPush st.passed comp.KEY k
      = .ok (aset st.passed comp.KEY (l ++ [k])) := by
    simp [passedPush, hp]
  have hres : Component.resolve comp ⟨st.d, st.out, st.passed, parent, k, data⟩
      = .ok (aset st.passed comp.KEY (l ++ [k]), parent) := by
    simp [Component.resolve, htrig, hpush, hreq, hget, hproc]
  refine ⟨hres, ?_⟩
  simp only [entityStep, hout, hd, hres]
  rw [aset_eq_of_alookup _ _ _ hout]

/-- C9 witness: a custom trigger fires for an entity lacking the
component's key, so the default extraction yields the sentinel and
nothing is written. -/
theorem process_none_no_write_witness :
    Component.resolve alwaysC ⟨stAlways.d, stAlways.out, stAlways.passed, [], "x", recY⟩
      = .ok (aset stAlways.passed alwaysC.KEY ([] ++ ["x"]), [])
    ∧ entityStep alwaysC stAlways "x"
      = { stAlways with passed := aset stAlways.passed alwaysC.KEY ([] ++ ["x"]) } :=
  process_none_no_write alwaysC stAlways "x" [] recY [] none
    (by decide) (by decide) rfl (by decide) rfl rfl rfl

theorem dedupFirst_mem : ∀ (l seen : List String) (k : String),
    k ∈ dedupFirst seen l ↔ (k ∈ l ∧ k ∉ seen) := by
  intro l
  induction l with
  | nil => intro seen k; simp [dedupFirst]
  | cons x xs ih =>
    intro seen k
    by_cases hx : x ∈ seen
    · rw [dedupFirst, if_pos hx, ih]
      constructor
      · rintro ⟨h1, h2⟩
        exact ⟨List.mem_cons_of_mem _ h1, h2⟩
      · rintro ⟨h1, h2⟩
        rcases List.mem_cons.1 h1 with rfl | h1
        · exact absurd hx h2
        · exact ⟨h1, h2⟩
    · rw [dedupFirst, if_neg hx]
      simp only [List.mem_cons, ih]
      constructor
      · rintro (rfl | ⟨h1, h2⟩)
        · exact ⟨Or.inl rfl, hx⟩
        · exact ⟨Or.inr h1, fun hs => h2 (Or.inr hs)⟩
      · rintro ⟨rfl | h1, h2⟩
        · exact Or.inl rfl
        · by_cases hkx : k = x
          · exact Or.inl hkx
          · exact Or.inr ⟨h1, by simp [List.mem_cons, hkx, h2]⟩

theorem mem_dependencies_of_requires {comps : List Component} {c : Component} {k : String}
    (h : k ∈ c.REQUIRES) : k ∈ Component.dependencies comps c := by
  unfold Component.dependencies
  rw [dedupFirst_mem]
  exact ⟨by simp [h], by simp⟩

theorem mem_dependencies_of_wait_for {comps : List Component} {c : Component} {k : String}
    (h : k ∈ c.WAIT_FOR) : k ∈ Component.dependencies comps c := by
  unfold Component.dependencies
  rw [dedupFirst_mem]
  exact ⟨by simp [h], by simp⟩

theorem mem_dependencies_of_hoist {comps : List Component} {c a : Component}
    (hch : c.HOIST = false) (ha : a ∈ comps) (hah : a.HOIST = true) :
    a.KEY ∈ Component.dependencies comps c := by
  unfold Component.dependencies
  rw [dedupFirst_mem]
  refine ⟨?_, by simp⟩
  have : a.KEY ∈ (comps.filter (fun x => x.HOIST)).map Component.KEY :=
    List.mem_map_of_mem _ (List.mem_filter.2 ⟨ha, by simp [hah]⟩)
  simp [hch, this]

theorem mem_dependencies_of_sink {comps : List Component} {c a : Component}
    (hcs : c.SINK = true) (ha : a ∈ comps) (has : a.SINK = false) :
    a.KEY ∈ Component.dependencies comps c := by
  unfold Component.dependencies
  rw [dedupFirst_mem]
  refine ⟨?_, by simp⟩
  have : a.KEY ∈ (comps.filter (fun x => !x.SINK)).map Component.KEY :=
    List.mem_map_of_mem _ (List.mem_filter.2 ⟨ha, by simp [has]⟩)
  simp [hcs, this]

theorem removeDepAll_perm (key : String) : ∀ (pending : List (Component × List String)),
    (((removeDepAll key pending).1.map Prod.fst) ++ (removeDepAll key pending).2).Perm
      (pending.map Prod.fst) := by
  intro pending
  induction pending with
  | nil => simp [removeDepAll]
  | cons q rest ih =>
    simp only [removeDepAll]
    by_cases h1 : key ∈ q.2
    · rw [if_pos h1]
      by_cases h2 : (q.2.erase key).isEmpty
      · rw [if_pos h2]
        simp only [List.map_cons]
        exact List.perm_middle.trans (ih.cons q.1)
      · rw [if_neg h2]
        simp only [List.map_cons, List.cons_append]
        exact (ih.cons q.1)
    · rw [if_neg h1]
      simp only [List.map_cons, List.cons_append]
      exact (ih.cons q.1)

theorem removeDepAll_kept (key : String) : ∀ (pending : List (Component × List String)),
    ∀ q' ∈ (removeDepAll key pending).1,
      ∃ dep, (q'.1, dep) ∈ pending ∧ ∀ k ∈ dep, k ∈ q'.2 ∨ k = key := by
  intro pending
  induction pending with
  | nil => simp [removeDepAll]
  | cons q rest ih =>
    intro q' hq'
    simp only [removeDepAll] at hq'
    by_cases h1 : key ∈ q.2
    · rw [if_pos h1] at hq'
      by_cases h2 : (q.2.erase key).isEmpty
      · rw [if_pos h2] at hq'
        obtain ⟨dep, hmem, hcov⟩ := ih q' hq'
        exact ⟨dep, List.mem_cons_of_mem _ hmem, hcov⟩
      · rw [if_neg h2] at hq'
        rcases List.mem_cons.1 hq' with rfl | hq'
        · refine ⟨q.2, by simp, ?_⟩
          intro k hk
          by_cases hkk : k = key
          · exact Or.inr hkk
          · exact Or.inl ((List.mem_erase_of_ne hkk).2 hk)
        · obtain ⟨dep, hmem, hcov⟩ := ih q' hq'
          exact ⟨dep, List.mem_cons_of_mem _ hmem, hcov⟩
    · rw [if_neg h1] at hq'
      rcases List.mem_cons.1 hq' with rfl | hq'
      · exact ⟨q'.2, by simp, fun k hk => Or.inl hk⟩
      · obtain ⟨dep, hmem, hcov⟩ := ih q' hq'
        exact ⟨dep, List.mem_cons_of_mem _ hmem, hcov⟩

theorem removeDepAll_freed (key : String) : ∀ (pending : List (Component × List String)),
    ∀ c ∈ (removeDepAll key pending).2,
      ∃ dep, (c, dep) ∈ pending ∧ ∀ k ∈ dep, k = key := by
  intro pending
  induction pending with
  | nil => simp [removeDepAll]
  | cons q rest ih =>
    intro c hc
    simp only [removeDepAll] at hc
    by_cases h1 : key ∈ q.2
    · rw [if_pos h1] at hc
      by_cases h2 : (q.2.erase key).isEmpty
      · rw [if_pos h2] at hc
        rcases List.mem_cons.1 hc with rfl | hc
        · refine ⟨q.2, by simp, ?_⟩
          intro k hk
          by_cases hkk : k = key
          · exact hkk
          · have : k ∈ q.2.erase key := (List.mem_erase_of_ne hkk).2 hk
            rw [List.isEmpty_iff] at h2
            rw [h2] at this
            simp at this
        · obtain ⟨dep, hmem, hcov⟩ := ih c hc
          exact ⟨dep, List.mem_cons_of_mem _ hmem, hcov⟩
      · rw [if_neg h2] at hc
        obtain ⟨dep, hmem, hcov⟩ := ih c hc
        exact ⟨dep, List.mem_cons_of_mem _ hmem, hcov⟩
    · rw [if_neg h1] at hc
      obtain ⟨dep, hmem, hcov⟩ := ih c hc
      exact ⟨dep, List.mem_cons_of_mem _ hmem, hcov⟩

theorem ordered_append {comps : List Component} {out : List Component} {n : Component}
    (h : ordered comps out)
    (hn : ∀ k ∈ Component.dependencies comps n, ∃ m ∈ out, m.KEY = k) :
    ordered comps (out ++ [n]) := by
  intro j hj k hk
  by_cases hjo : j < out.length
  · rw [List.get_append j hjo] at hk
    obtain ⟨i, hi, hlt, hkey⟩ := h j hjo k hk
    have hi' : i < (out ++ [n]).length := by simp; omega
    refine ⟨i, hi', hlt, ?_⟩
    rw [List.get_append i hi]
    exact hkey
  · have hj' : j = out.length := by
      have := hj
      simp only [List.length_append, List.length_singleton] at this
      omega
    have hget : (out ++ [n]).get ⟨j, hj⟩ = n := by
      subst hj'; simp
    rw [hget] at hk
    obtain ⟨m, hm, hkey⟩ := hn k hk
    obtain ⟨⟨i, hi⟩, rfl⟩ := List.mem_iff_get.1 hm
    have hi' : i < (out ++ [n]).length := by simp; omega
    refine ⟨i, hi', by omega, ?_⟩
    rw [List.get_append i hi]
    exact hkey

theorem kahnExit {comps : List Component} (hnd : comps.Nodup)
    {pending : List (Component × List String)} {noEdges out : List Component}
    (hperm : (pending.map Prod.fst ++ noEdges ++ out).Perm comps)
    (hord : ordered comps out) :
    ordered comps out ∧ out.Nodup ∧ ∀ x ∈ out, x ∈ comps := by
  refine ⟨hord, ?_, ?_⟩
  · have hall : (pending.map Prod.fst ++ noEdges ++ out).Nodup := hnd.perm hperm.symm
    exact (List.sublist_append_right (pending.map Prod.fst ++ noEdges) out).nodup hall
  · intro x hx
    exact hperm.mem_iff.1 (by simp [hx])

theorem kahnLoop_spec {comps : List Component} (hnd : comps.Nodup) :
    ∀ (fuel : Nat) (pending : List (Component × List String)) (noEdges out : List Component),
    ((pending.map Prod.fst ++ noEdges ++ out).Perm comps) →
    (∀ q ∈ pending, ∀ k ∈ Component.dependencies comps q.1, k ∈ q.2 ∨ ∃ m ∈ out, m.KEY = k) →
    (∀ n ∈ noEdges, ∀ k ∈ Component.dependencies comps n, ∃ m ∈ out, m.KEY = k) →
    ordered comps out →
    ordered comps (kahnLoop fuel pending noEdges out)
      ∧ (kahnLoop fuel pending noEdges out).Nodup
      ∧ ∀ x ∈ kahnLoop fuel pending noEdges out, x ∈ comps := by
  intro fuel
  induction fuel with
  | zero =>
    intro pending noEdges out hperm hpend hno hord
    simp only [kahnLoop]
    exact kahnExit hnd hperm hord
  | succ fuel ih =>
    intro pending noEdges out hperm hpend hno hord
    cases hlast : noEdges.getLast? with
    | none =>
      simp only [kahnLoop, hlast]
      exact kahnExit hnd hperm hord
    | some n =>
      have heq : noEdges.dropLast ++ [n] = noEdges :=
        List.dropLast_append_getLast? n hlast
      have hn_mem : n ∈ noEdges := by rw [← heq]; simp
      have hn_deps : ∀ k ∈ Component.dependencies comps n, ∃ m ∈ out, m.KEY = k :=
        hno n hn_mem
      have hord' : ordered comps (out ++ [n]) := ordered_append hord hn_deps
      have hpend' : ∀ q ∈ (removeDepAll n.KEY pending).1,
          ∀ k ∈ Component.dependencies comps q.1,
            k ∈ q.2 ∨ ∃ m ∈ out ++ [n], m.KEY = k := by
        intro q hq k hk
        obtain ⟨dep, hmem, hcov⟩ := removeDepAll_kept n.KEY pending q hq
        rcases hpend (q.1, dep) hmem k hk with hin | ⟨m, hm, hkey⟩
        · rcases hcov k hin with h | h
          · exact Or.inl h
          · exact Or.inr ⟨n, by simp, h.symm⟩
        · exact Or.inr ⟨m, by simp [hm], hkey⟩
      have hno' : ∀ m' ∈ noEdges.dropLast ++ (removeDepAll n.KEY pending).2,
          ∀ k ∈ Component.dependencies comps m', ∃ m ∈ out ++ [n], m.KEY = k := by
        intro m' hm' k hk
        rcases List.mem_append.1 hm' with hr | hf
        · have hmn : m' ∈ noEdges := by
            rw [← heq]; exact List.mem_append_left _ hr
          obtain ⟨m, hm, hkey⟩ := hno m' hmn k hk
          exact ⟨m, by simp [hm], hkey⟩
        · obtain ⟨dep, hmem, hcov⟩ := removeDepAll_freed n.KEY pending m' hf
          rcases hpend (m', dep) hmem k hk with hin | ⟨m, hm, hkey⟩
          · exact ⟨n, by simp, (hcov k hin).symm⟩
          · exact ⟨m, by simp [hm], hkey⟩
      have hperm' : (((removeDepAll n.KEY pending).1.map Prod.fst)
          ++ (noEdges.dropLast ++ (removeDepAll n.KEY pending).2)
          ++ (out ++ [n])).Perm comps := by
        have h1 := removeDepAll_perm n.KEY pending
        rw [← Multiset.coe_eq_coe] at h1 hperm ⊢
        rw [← heq] at hperm
        simp only [← Multiset.coe_add] at h1 hperm ⊢
        rw [← hperm, ← h1]
        abel
      have hstep : kahnLoop (fuel + 1) pending noEdges out
          = kahnLoop fuel (removeDepAll n.KEY pending).1
              (noEdges.dropLast ++ (removeDepAll n.KEY pending).2) (out ++ [n]) := by
        simp only [kahnLoop, hlast]
      rw [hstep]
      exact ih _ _ _ hperm' hpend' hno' hord'

theorem all_spec {comps : List Component} (hnd : comps.Nodup) :
    ordered comps (Component.all comps)
      ∧ (Component.all comps).Nodup
      ∧ ∀ x ∈ Component.all comps, x ∈ comps := by
  unfold Component.all
  apply kahnLoop_spec hnd
  · have hsplit := List.filter_append_perm (fun q => q.2.isEmpty)
      (comps.map (fun c => (c, Component.dependencies comps c)))
    have hperm0 : ((comps.map (fun c => (c, Component.dependencies comps c))).filter
          (fun q => !q.2.isEmpty)
        ++ ((comps.map (fun c => (c, Component.dependencies comps c))).filter
          (fun q => q.2.isEmpty))).Perm
        (comps.map (fun c => (c, Component.dependencies comps c))) :=
      List.perm_append_comm.trans hsplit
    have := hperm0.map Prod.fst
    simp only [List.map_append, List.map_map] at this
    have hid : Prod.fst ∘ (fun c => (c, Component.dependencies comps c)) = id := rfl
    rw [hid, List.map_id] at this
    simpa using this
  · intro q hq k hk
    have hq' := List.mem_filter.1 hq
    obtain ⟨c, -, rfl⟩ := List.mem_map.1 hq'.1
    exact Or.inl hk
  · intro n hn k hk
    obtain ⟨q, hq, rfl⟩ := List.mem_map.1 hn
    have hq' := List.mem_filter.1 hq
    obtain ⟨c, -, hc⟩ := List.mem_map.1 hq'.1
    have hdep : q.2 = Component.dependencies comps q.1 := by
      rw [← hc]
    have : q.2.isEmpty := by simpa using hq'.2
    rw [List.isEmpty_iff] at this
    rw [hdep] at this
    rw [this] at hk
    simp at hk
  · intro j hj k hk
    simp at hj

/-- C2 (amended): assuming the registered components carry pairwise
distinct KEYs (the engine's passed-set bookkeeping is keyed by KEY), for
every pair A, B with A's KEY in B's REQUIRES or WAIT_FOR, whenever both A
and B appear in the order computed by `Component.all`, A appears strictly
before B.  (The unamended claim fails when the components are dropped
from the order entirely, see the counterexample.) -/
theorem order_respects_dependencies
    (comps : List Component)
    (hkeys : (comps.map Component.KEY).Nodup)
    (A B : Component)
    (hdep : A.KEY ∈ B.REQUIRES ∨ A.KEY ∈ B.WAIT_FOR)
    (i j : Nat) (hi : i < (Component.all comps).length) (hj : j < (Component.all comps).length)
    (hA : (Component.all comps).get ⟨i, hi⟩ = A)
    (hB : (Component.all comps).get ⟨j, hj⟩ = B) :
    i < j := by
  have hnd : comps.Nodup := List.Nodup.of_map _ hkeys
  obtain ⟨hord, hnodup, hmem⟩ := all_spec hnd
  have hAall : A ∈ Component.all comps := by
    rw [← hA]; exact List.get_mem _ _ _
  have hAc : A ∈ comps := hmem A hAall
  have hdepB : A.KEY ∈ Component.dependencies comps B :=
    hdep.elim mem_dependencies_of_requires mem_dependencies_of_wait_for
  have hk : A.KEY ∈ Component.dependencies comps ((Component.all comps).get ⟨j, hj⟩) := by
    rw [hB]; exact hdepB
  obtain ⟨i', hi', hlt, hkey⟩ := hord j hj A.KEY hk
  have hmem' : (Component.all comps).get ⟨i', hi'⟩ ∈ comps :=
    hmem _ (List.get_mem _ _ _)
  have heqA : (Component.all comps).get ⟨i', hi'⟩ = A :=
    List.inj_on_of_nodup_map hkeys hmem' hAc hkey
  have hfin : (⟨i', hi'⟩ : Fin (Component.all comps).length) = ⟨i, hi⟩ :=
    hnodup.get_inj_iff.1 (by rw [heqA, hA])
  have : i' = i := congrArg Fin.val hfin
  omega

/-- C2 amended-claim witness: a two-component chain where the required
component is placed first. -/
theorem order_respects_dependencies_witness :
    ([depB, depA].map Component.KEY).Nodup ∧ (0 : Nat) < 1 := by
  refine ⟨by decide, ?_⟩
  exact order_respects_dependencies [depB, depA] (by decide) depA depB
    (Or.inl (by decide)) 0 1 (by decide) (by decide) rfl rfl

/-- C6: in the order returned by `Component.all` over components with
pairwise distinct KEYs, every hoisted component precedes every non-hoisted
one, and every sunk component follows every non-sunk one. -/
theorem hoist_sink_placement
    (comps : List Component) (hkeys : (comps.map Component.KEY).Nodup)
    (i j : Nat) (hi : i < (Component.all comps).length) (hj : j < (Component.all comps).length) :
    (((Component.all comps).get ⟨i, hi⟩).HOIST = true →
      ((Component.all comps).get ⟨j, hj⟩).HOIST = false → i < j)
    ∧ (((Component.all comps).get ⟨i, hi⟩).SINK = true →
      ((Component.all comps).get ⟨j, hj⟩).SINK = false → j < i) := by
  have hnd : comps.Nodup := List.Nodup.of_map _ hkeys
  obtain ⟨hord, hnodup, hmem⟩ := all_spec hnd
  constructor
  · intro hH hNH
    have hAc : (Component.all comps).get ⟨i, hi⟩ ∈ comps := hmem _ (List.get_mem _ _ _)
    have hdepB : ((Component.all comps).get ⟨i, hi⟩).KEY
        ∈ Component.dependencies comps ((Component.all comps).get ⟨j, hj⟩) :=
      mem_dependencies_of_hoist hNH hAc hH
    obtain ⟨i', hi', hlt, hkey⟩ := hord j hj _ hdepB
    have heq : (Component.all comps).get ⟨i', hi'⟩ = (Component.all comps).get ⟨i, hi⟩ :=
      List.inj_on_of_nodup_map hkeys (hmem _ (List.get_mem _ _ _)) hAc hkey
    have hfin : (⟨i', hi'⟩ : Fin (Component.all comps).length) = ⟨i, hi⟩ :=
      hnodup.get_inj_iff.1 heq
    have : i' = i := congrArg Fin.val hfin
    omega
  · intro hS hNS
    have hBc : (Component.all comps).get ⟨j, hj⟩ ∈ comps := hmem _ (List.get_mem _ _ _)
    have hdepA : ((Component.all comps).get ⟨j, hj⟩).KEY
        ∈ Component.dependencies comps ((Component.all comps).get ⟨i, hi⟩) :=
      mem_dependencies_of_sink hS hBc hNS
    obtain ⟨j', hj', hlt, hkey⟩ := hord i hi _ hdepA
    have heq : (Component.all comps).get ⟨j', hj'⟩ = (Component.all comps).get ⟨j, hj⟩ :=
      List.inj_on_of_nodup_map hkeys (hmem _ (List.get_mem _ _ _)) hBc hkey
    have hfin : (⟨j', hj'⟩ : Fin (Component.all comps).length) = ⟨j, hj⟩ :=
      hnodup.get_inj_iff.1 heq
    have : j' = j := congrArg Fin.val hfin
    omega

/-- C6 witness: a hoisted, a plain and a sunk component; the hoisted one
is placed before the plain one and the plain one before the sunk one. -/
theorem hoist_sink_placement_witness :
    ([sinkC, plainC, hoistC].map Component.KEY).Nodup
    ∧ (0 : Nat) < 1 ∧ (1 : Nat) < 2 := by
  refine ⟨by decide, ?_, ?_⟩
  · exact (hoist_sink_placement [sinkC, plainC, hoistC] (by decide)
      0 1 (by decide) (by decide)).1 rfl rfl
  · exact (hoist_sink_placement [sinkC, plainC, hoistC] (by decide)
      2 1 (by decide) (by decide)).2 rfl rfl

/-- C10: a registered component whose dependency set mentions a key that
no registered component carries is absent from the order of
`Component.all`, and so is every component transitively depending on it
(over distinct-KEY registrations); `Component.all` is a total function
into a plain list, so no error or diagnostic accompanies the omission. -/
theorem dangling_dependency_drops_component
    (comps : List Component) (hkeys : (comps.map Component.KEY).Nodup)
    (K : String) (c : Component)
    (hK : K ∈ Component.dependencies comps c)
    (hnone : ∀ m ∈ comps, m.KEY ≠ K) :
    c ∉ Component.all comps
    ∧ ∀ d, Relation.TransGen (DepOn comps) d c → d ∉ Component.all comps := by
  have hnd : comps.Nodup := List.Nodup.of_map _ hkeys
  obtain ⟨hord, hnodup, hmem⟩ := all_spec hnd
  have hroot : c ∉ Component.all comps := by
    intro hc
    obtain ⟨⟨j, hj⟩, hget⟩ := List.mem_iff_get.1 hc
    have hk : K ∈ Component.dependencies comps ((Component.all comps).get ⟨j, hj⟩) := by
      rw [hget]; exact hK
    obtain ⟨i, hi, -, hkey⟩ := hord j hj K hk
    exact hnone _ (hmem _ (List.get_mem _ _ _)) hkey
  have hstep : ∀ x y : Component, DepOn comps x y →
      y ∉ Component.all comps → x ∉ Component.all comps := by
    rintro x y ⟨hyc, hdep⟩ hy hx
    obtain ⟨⟨j, hj⟩, hget⟩ := List.mem_iff_get.1 hx
    have hk : y.KEY ∈ Component.dependencies comps ((Component.all comps).get ⟨j, hj⟩) := by
      rw [hget]; exact hdep
    obtain ⟨i, hi, -, hkey⟩ := hord j hj y.KEY hk
    have heq : (Component.all comps).get ⟨i, hi⟩ = y :=
      List.inj_on_of_nodup_map hkeys (hmem _ (List.get_mem _ _ _)) hyc hkey
    exact hy (heq ▸ List.get_mem (Component.all comps) i hi)
  refine ⟨hroot, ?_⟩
  intro d htg
  induction htg using Relation.TransGen.head_induction_on with
  | base h => exact hstep _ _ h hroot
  | ih h' _ hrec => exact hstep _ _ h' hrec

/-- C10 witness: a component requiring the unregistered key "ghost" and a
second component waiting on the first are both dropped from the order. -/
theorem dangling_dependency_drops_component_witness :
    ghostC ∉ Component.all [ghostC, afterGhostC]
    ∧ afterGhostC ∉ Component.all [ghostC, afterGhostC] := by
  have h := dangling_dependency_drops_component [ghostC, afterGhostC]
    (by decide) "ghost" ghostC (by decide) (by decide)
  exact ⟨h.1, h.2 afterGhostC (Relation.TransGen.single ⟨by simp, by decide⟩)⟩

theorem alookup_eq_none_iff {α : Type} (l : List (String × α)) (k : String) :
    alookup l k = none ↔ k ∉ akeys l := by
  induction l with
  | nil => simp [alookup, akeys]
  | cons p rest ih =>
    by_cases hp : p.1 = k
    · simp [alookup, hp, akeys]
    · simp [alookup, hp, akeys, ih, Ne.symm hp]

theorem alookup_mem {α : Type} {l : List (String × α)} {k : String} {v : α}
    (h : alookup l k = some v) : (k, v) ∈ l := by
  induction l with
  | nil => simp [alookup] at h
  | cons p rest ih =>
    by_cases hp : p.1 = k
    · simp only [alookup, hp, if_pos] at h
      obtain rfl := Option.some.inj h
      rw [← hp]
      exact List.mem_cons_self p rest
    · simp only [alookup, hp, if_neg, ite_false] at h
      exact List.mem_cons_of_mem _ (ih h)

theorem mem_aset {α : Type} {l : List (String × α)} {k : String} {v : α} :
    ∀ p ∈ aset l k v, p = (k, v) ∨ p ∈ l := by
  induction l with
  | nil => simp [aset]
  | cons q rest ih =>
    intro p hp
    by_cases hq : q.1 = k
    · rw [aset, if_pos hq] at hp
      rcases List.mem_cons.1 hp with rfl | hp
      · exact Or.inl rfl
      · exact Or.inr (List.mem_cons_of_mem _ hp)
    · rw [aset, if_neg hq] at hp
      rcases List.mem_cons.1 hp with rfl | hp
      · exact Or.inr (by simp)
      · rcases ih p hp with h | h
        · exact Or.inl h
        · exact Or.inr (List.mem_cons_of_mem _ h)

theorem alookup_aerase_self {α : Type} (l : List (String × α)) (k : String) :
    alookup (aerase l k) k = none := by
  induction l with
  | nil => simp [aerase, alookup]
  | cons p rest ih =>
    by_cases hp : p.1 = k
    · simp [aerase, hp, ih]
    · simp [aerase, hp, alookup, ih]

theorem alookup_aerase_ne {α : Type} (l : List (String × α)) (k k' : String)
    (h : k' ≠ k) : alookup (aerase l k) k' = alookup l k' := by
  induction l with
  | nil => simp [aerase]
  | cons p rest ih =>
    by_cases hp : p.1 = k
    · rw [aerase, if_pos hp, ih, alookup, if_neg (by rw [hp]; exact Ne.symm h)]
    · rw [aerase, if_neg hp, alookup, alookup, ih]

theorem aerase_sublist {α : Type} (l : List (String × α)) (k : String) :
    (aerase l k).Sublist l := by
  induction l with
  | nil => simp [aerase]
  | cons p rest ih =>
    by_cases hp : p.1 = k
    · rw [aerase, if_pos hp]
      exact ih.cons p
    · rw [aerase, if_neg hp]
      exact ih.cons₂ p

theorem akeys_aset_of_some {α : Type} {l : List (String × α)} {k : String} {w : α}
    (h : alookup l k = some w) (v : α) : akeys (aset l k v) = akeys l := by
  induction l with
  | nil => simp [alookup] at h
  | cons p rest ih =>
    by_cases hp : p.1 = k
    · rw [aset, if_pos hp]
      simp [akeys, hp]
    · rw [alookup, if_neg hp] at h
      rw [aset, if_neg hp]
      simp [akeys] at ih ⊢
      exact ih h

theorem alookup_append {α : Type} (l1 l2 : List (String × α)) (k : String) :
    alookup (l1 ++ l2) k
      = match alookup l1 k with
        | some v => some v
        | none => alookup l2 k := by
  induction l1 with
  | nil => simp [alookup]
  | cons p rest ih =>
    by_cases hp : p.1 = k
    · simp [alookup, hp]
    · simp [alookup, hp, ih]

theorem errAdd_self (errs : ErrorMap) (k : String) (msg : String) :
    (alookup (errAdd errs k msg) k).getD [] = (alookup errs k).getD [] ++ [msg] := by
  unfold errAdd
  cases h : alookup errs k with
  | some l => rw [alookup_aset_self]; simp [h]
  | none =>
    rw [alookup_append, h]
    simp [alookup]

theorem errAdd_ne (errs : ErrorMap) (k k' msg) (h : k' ≠ k) :
    alookup (errAdd errs k msg) k' = alookup errs k' := by
  unfold errAdd
  cases hl : alookup errs k with
  | some l => exact alookup_aset_ne _ _ _ _ h
  | none =>
    rw [alookup_append]
    cases hk' : alookup errs k' with
    | some v => rfl
    | none => simp [alookup, Ne.symm h]

theorem errAdd_mono {errs : ErrorMap} {k : String} {m : String} (k'' msg : String)
    (h : m ∈ (alookup errs k).getD []) :
    m ∈ (alookup (errAdd errs k'' msg) k).getD [] := by
  by_cases hk : k = k''
  · subst hk
    rw [errAdd_self]
    exact List.mem_append_left _ h
  · rw [errAdd_ne _ _ _ _ hk]
    exact h

theorem resolve_passed_spec {c : Component} {ctx : Ctx} {pr : PassedMap × Entity}
    (h : Component.resolve c ctx = .ok pr) :
    pr.1 = ctx.passed
    ∨ ∃ l, alookup ctx.passed c.KEY = some l
        ∧ pr.1 = aset ctx.passed c.KEY (l ++ [ctx.id]) := by
  unfold Component.resolve at h
  cases htr : triggerOf c ctx with
  | error e => rw [htr] at h; simp at h
  | ok b =>
    rw [htr] at h
    cases b with
    | false =>
      simp only [Except.ok.injEq] at h
      exact Or.inl (by rw [← h])
    | true =>
      cases hp : passedPush ctx.passed c.KEY ctx.id with
      | error e => rw [hp] at h; simp at h
      | ok passed1 =>
        rw [hp] at h
        simp only [] at h
        have hps : ∃ l, alookup ctx.passed c.KEY = some l
            ∧ passed1 = aset ctx.passed c.KEY (l ++ [ctx.id]) := by
          unfold passedPush at hp
          cases hl : alookup ctx.passed c.KEY with
          | none => rw [hl] at hp; simp at hp
          | some l =>
            rw [hl] at hp
            simp only [Except.ok.injEq] at hp
            exact ⟨l, rfl, hp.symm⟩
        obtain ⟨l, hl, hp1⟩ := hps
        refine Or.inr ⟨l, hl, ?_⟩
        cases hc : checkRequires c.KEY passed1 ctx.id c.REQUIRES with
        | error e => rw [hc] at h; simp at h
        | ok u =>
          rw [hc] at h
          simp only [] at h
          cases hg : getDataOf c { ctx with passed := passed1 } with
          | error e => rw [hg] at h; simp at h
          | ok cData =>
            rw [hg] at h
            simp only [] at h
            cases hpr : processOf c cData { ctx with passed := passed1 } with
            | error e => rw [hpr] at h; simp at h
            | ok outv =>
              rw [hpr] at h
              cases outv with
              | none =>
                simp only [Except.ok.injEq] at h
                rw [← h, hp1]
              | some o =>
                simp only [] at h
                cases ht : transformOf c o { ctx with passed := passed1 } with
                | error e => rw [ht] at h; simp at h
                | ok parent1 =>
                  rw [ht] at h
                  simp only [] at h
                  simp only [Except.ok.injEq] at h
                  rw [← h, hp1]

theorem evicted_entityStep {comp : Component} {st : RState} {k k' : String}
    (h : evicted st k) (hne : k' ≠ k) : evicted (entityStep comp st k') k := by
  obtain ⟨hout, hd, hpassed⟩ := h
  cases ho : alookup st.out k' with
  | none =>
    have hstep : entityStep comp st k' = st := by
      simp only [entityStep, ho]
    rw [hstep]
    exact ⟨hout, hd, hpassed⟩
  | some parent =>
    cases hdd : alookup st.d k' with
    | none =>
      have hstep : entityStep comp st k' = st := by
        simp only [entityStep, ho, hdd]
      rw [hstep]
      exact ⟨hout, hd, hpassed⟩
    | some data =>
      cases hres : Component.resolve comp ⟨st.d, st.out, st.passed, parent, k', data⟩ with
      | ok pr =>
        have hstep : entityStep comp st k'
            = { st with passed := pr.1, out := aset st.out k' pr.2 } := by
          simp only [entityStep, ho, hdd, hres]
        rw [hstep]
        refine ⟨?_, ?_, ?_⟩
        · show alookup (aset st.out k' pr.2) k = none
          rw [alookup_aset_ne _ _ _ _ (Ne.symm hne)]
          exact hout
        · exact hd
        · intro p hp
          replace hp : p ∈ pr.1 := hp
          rcases resolve_passed_spec hres with hsame | ⟨l, hl, hset⟩
          · rw [hsame] at hp
            exact hpassed p hp
          · rw [hset] at hp
            rcases mem_aset p hp with rfl | hp
            · have hkl : k ∉ l := hpassed (comp.KEY, l) (alookup_mem hl)
              simp only [List.mem_append, List.mem_singleton]
              rintro (hkin | rfl)
              · exact hkl hkin
              · exact hne rfl
            · exact hpassed p hp
      | error msg =>
        have hstep : entityStep comp st k'
            = { d := aerase st.d k', out := aerase st.out k'
                passed := st.passed.map (fun p => (p.1, p.2.erase k'))
                errors := errAdd st.errors k' msg } := by
          simp only [entityStep, ho, hdd, hres]
        rw [hstep]
        refine ⟨?_, ?_, ?_⟩
        · show alookup (aerase st.out k') k = none
          rw [alookup_aerase_ne _ _ _ (Ne.symm hne)]
          exact hout
        · show alookup (aerase st.d k') k = none
          rw [alookup_aerase_ne _ _ _ (Ne.symm hne)]
          exact hd
        · intro p hp
          replace hp : p ∈ st.passed.map (fun p => (p.1, p.2.erase k')) := hp
          obtain ⟨q, hq, rfl⟩ := List.mem_map.1 hp
          intro hk
          exact hpassed q hq (List.mem_of_mem_erase hk)

theorem evicted_foldl {comp : Component} {k : String} :
    ∀ (ks : List String) (st : RState), evicted st k → (∀ k' ∈ ks, k' ≠ k) →
      evicted (ks.foldl (entityStep comp) st) k := by
  intro ks
  induction ks with
  | nil => intro st h _; exact h
  | cons k' ks ih =>
    intro st h hks
    exact ih _ (evicted_entityStep h (hks k' (by simp)))
      (fun x hx => hks x (List.mem_cons_of_mem _ hx))

theorem evicted_componentPass {comp : Component} {st : RState} {k : String}
    (h : evicted st k) : evicted (componentPass comp st) k := by
  obtain ⟨hout, hd, hpassed⟩ := h
  have hst1 : evicted { st with passed := aset st.passed comp.KEY [] } k := by
    refine ⟨hout, hd, ?_⟩
    intro p hp
    rcases mem_aset p hp with rfl | hp
    · simp
    · exact hpassed p hp
  apply evicted_foldl _ _ hst1
  intro k' hk' hk
  subst hk
  exact (alookup_eq_none_iff _ _).1 hout hk'

theorem evicted_runComponents {k : String} :
    ∀ (order : List Component) (st : RState), evicted st k →
      evicted (runComponents order st) k := by
  intro order
  induction order with
  | nil => intro st h; exact h
  | cons c cs ih =>
    intro st h
    exact ih _ (evicted_componentPass h)

theorem errors_mono_entityStep {comp : Component} {st : RState} {k k' : String} {m : String}
    (h : m ∈ (alookup st.errors k).getD []) :
    m ∈ (alookup (entityStep comp st k').errors k).getD [] := by
  cases ho : alookup st.out k' with
  | none =>
    have hstep : entityStep comp st k' = st := by simp only [entityStep, ho]
    rw [hstep]; exact h
  | some parent =>
    cases hdd : alookup st.d k' with
    | none =>
      have hstep : entityStep comp st k' = st := by simp only [entityStep, ho, hdd]
      rw [hstep]; exact h
    | some data =>
      cases hres : Component.resolve comp ⟨st.d, st.out, st.passed, parent, k', data⟩ with
      | ok pr =>
        have hstep : entityStep comp st k'
            = { st with passed := pr.1, out := aset st.out k' pr.2 } := by
          simp only [entityStep, ho, hdd, hres]
        rw [hstep]; exact h
      | error msg =>
        have hstep : entityStep comp st k'
            = { d := aerase st.d k', out := aerase st.out k'
                passed := st.passed.map (fun p => (p.1, p.2.erase k'))
                errors := errAdd st.errors k' msg } := by
          simp only [entityStep, ho, hdd, hres]
        rw [hstep]
        exact errAdd_mono k' msg h

theorem errors_mono_foldl {comp : Component} {k : String} {m : String} :
    ∀ (ks : List String) (st : RState), m ∈ (alookup st.errors k).getD [] →
      m ∈ (alookup ((ks.foldl (entityStep comp) st)).errors k).getD [] := by
  intro ks
  induction ks with
  | nil => intro st h; exact h
  | cons k' ks ih => intro st h; exact ih _ (errors_mono_entityStep h)

theorem errors_mono_componentPass {comp : Component} {st : RState} {k : String} {m : String}
    (h : m ∈ (alookup st.errors k).getD []) :
    m ∈ (alookup (componentPass comp st).errors k).getD [] := by
  exact errors_mono_foldl _ _ h

theorem errors_mono_runComponents {k : String} {m : String} :
    ∀ (order : List Component) (st : RState), m ∈ (alookup st.errors k).getD [] →
      m ∈ (alookup (runComponents order st).errors k).getD [] := by
  intro order
  induction order with
  | nil => intro st h; exact h
  | cons c cs ih => intro st h; exact ih _ (errors_mono_componentPass h)

theorem keys_nodup_entityStep {comp : Component} {st : RState} {k' : String}
    (h : (akeys st.out).Nodup) : (akeys (entityStep comp st k').out).Nodup := by
  cases ho : alookup st.out k' with
  | none =>
    have hstep : entityStep comp st k' = st := by simp only [entityStep, ho]
    rw [hstep]; exact h
  | some parent =>
    cases hdd : alookup st.d k' with
    | none =>
      have hstep : entityStep comp st k' = st := by simp only [entityStep, ho, hdd]
      rw [hstep]; exact h
    | some data =>
      cases hres : Component.resolve comp ⟨st.d, st.out, st.passed, parent, k', data⟩ with
      | ok pr =>
        have hstep : entityStep comp st k'
            = { st with passed := pr.1, out := aset st.out k' pr.2 } := by
          simp only [entityStep, ho, hdd, hres]
        rw [hstep]
        show (akeys (aset st.out k' pr.2)).Nodup
        rw [akeys_aset_of_some ho]
        exact h
      | error msg =>
        have hstep : entityStep comp st k'
            = { d := aerase st.d k', out := aerase st.out k'
                passed := st.passed.map (fun p => (p.1, p.2.erase k'))
                errors := errAdd st.errors k' msg } := by
          simp only [entityStep, ho, hdd, hres]
        rw [hstep]
        show (akeys (aerase st.out k')).Nodup
        exact ((aerase_sublist st.out k').map Prod.fst).nodup h

theorem keys_nodup_foldl {comp : Component} :
    ∀ (ks : List String) (st : RState), (akeys st.out).Nodup →
      (akeys ((ks.foldl (entityStep comp) st)).out).Nodup := by
  intro ks
  induction ks with
  | nil => intro st h; exact h
  | cons k' ks ih => intro st h; exact ih _ (keys_nodup_entityStep h)

theorem keys_nodup_runComponents :
    ∀ (order : List Component) (st : RState), (akeys st.out).Nodup →
      (akeys (runComponents order st).out).Nodup := by
  intro order
  induction order with
  | nil => intro st h; exact h
  | cons c cs ih => intro st h; exact ih _ (keys_nodup_foldl _ _ h)

/-- C3: when `Component.resolve` throws for a (component, entity) pair,
the resolver step records the error under the entity's id, removes the
entity from the manifest and the working record map, and removes its id
from every passed list; the entity then stays absent — from the rest of
the current pass (`ks2`, the remaining snapshot ids, which cannot contain
it again) and from every later component pass — so it is never visited
again and no partial output of it remains in the final manifest, while
the recorded error survives to the final error map. -/
theorem eviction_complete
    (comp : Component) (st : RState) (k : String) (msg : String)
    (parent : Entity) (data : EntityData)
    (ks2 : List String) (cs2 : List Component)
    (hout : alookup st.out k = some parent)
    (hd : alookup st.d k = some data)
    (hres : Component.resolve comp ⟨st.d, st.out, st.passed, parent, k, data⟩ = .error msg)
    (hks2 : ∀ k' ∈ ks2, k' ≠ k)
    (hcount : ∀ p ∈ st.passed, List.count k p.2 ≤ 1) :
    ((alookup (entityStep comp st k).errors k).getD []
        = (alookup st.errors k).getD [] ++ [msg])
    ∧ alookup (entityStep comp st k).out k = none
    ∧ alookup (entityStep comp st k).d k = none
    ∧ (∀ p ∈ (entityStep comp st k).passed, k ∉ p.2)
    ∧ alookup (runComponents cs2 (ks2.foldl (entityStep comp) (entityStep comp st k))).out k = none
    ∧ msg ∈ (alookup (runComponents cs2 (ks2.foldl (entityStep comp) (entityStep comp st k))).errors k).getD [] := by
  have hstep : entityStep comp st k
      = { d := aerase st.d k, out := aerase st.out k
          passed := st.passed.map (fun p => (p.1, p.2.erase k))
          errors := errAdd st.errors k msg } := by
    simp only [entityStep, hout, hd, hres]
  have hpassed' : ∀ p ∈ (entityStep comp st k).passed, k ∉ p.2 := by
    rw [hstep]
    intro p hp
    replace hp : p ∈ st.passed.map (fun p => (p.1, p.2.erase k)) := hp
    obtain ⟨q, hq, rfl⟩ := List.mem_map.1 hp
    show k ∉ q.2.erase k
    rw [← List.count_eq_zero]
    have h1 := List.count_erase_self k q.2
    have h2 := hcount q hq
    omega
  have hev : evicted (entityStep comp st k) k := by
    refine ⟨?_, ?_, hpassed'⟩
    · rw [hstep]
      show alookup (aerase st.out k) k = none
      exact alookup_aerase_self _ _
    · rw [hstep]
      show alookup (aerase st.d k) k = none
      exact alookup_aerase_self _ _
  have herr1 : (alookup (entityStep comp st k).errors k).getD []
      = (alookup st.errors k).getD [] ++ [msg] := by
    rw [hstep]
    exact errAdd_self _ _ _
  have hevrun : evicted (runComponents cs2 (ks2.foldl (entityStep comp) (entityStep comp st k))) k :=
    evicted_runComponents cs2 _ (evicted_foldl ks2 _ hev hks2)
  have hmsg1 : msg ∈ (alookup (entityStep comp st k).errors k).getD [] := by
    rw [herr1]; simp
  have hmsgrun := errors_mono_runComponents cs2 _
    (@errors_mono_foldl comp k msg ks2 (entityStep comp st k) hmsg1)
  exact ⟨herr1, hev.1, hev.2.1, hpassed', hevrun.1, hmsgrun⟩

/-- C3 witness: the sword entity whose weapon component requires a damage
facet that never passed is evicted with a requirement-violation. -/
theorem eviction_complete_witness :
    ((alookup (entityStep weaponC stSword "sword").errors "sword").getD []
        = (alookup stSword.errors "sword").getD [] ++ [reqMsg "sword" "dmg" "w"])
    ∧ alookup (entityStep weaponC stSword "sword").out "sword" = none
    ∧ alookup (entityStep weaponC stSword "sword").d "sword" = none
    ∧ (∀ p ∈ (entityStep weaponC stSword "sword").passed, "sword" ∉ p.2)
    ∧ alookup (runComponents [] ([].foldl (entityStep weaponC) (entityStep weaponC stSword "sword"))).out "sword" = none
    ∧ reqMsg "sword" "dmg" "w" ∈ (alookup (runComponents []
        ([].foldl (entityStep weaponC) (entityStep weaponC stSword "sword"))).errors "sword").getD [] :=
  eviction_complete weaponC stSword "sword" (reqMsg "sword" "dmg" "w") [] swordRec [] []
    (by decide) (by decide) (by rfl) (by simp) (by decide)

theorem alookup_append_of_some {α : Type} {l1 : List (String × α)} (l2 : List (String × α))
    {k : String} {v : α} (h : alookup l1 k = some v) : alookup (l1 ++ l2) k = some v := by
  rw [alookup_append, h]

theorem dedupRecords_acc_mono :
    ∀ (ents : List EntityData) (acc : List (String × EntityData)) (errs : ErrorMap)
      (i : String) (r : EntityData),
    alookup acc i = some r → alookup (dedupRecords acc errs ents).1 i = some r := by
  intro ents
  induction ents with
  | nil => intro acc errs i r h; exact h
  | cons e rest ih =>
    intro acc errs i r h
    simp only [dedupRecords]
    cases hl : alookup acc (idStr e) with
    | some prev => exact ih _ _ _ _ h
    | none =>
      apply ih
      rw [alookup_append]
      rw [h]

theorem dedupRecords_err_mono :
    ∀ (ents : List EntityData) (acc : List (String × EntityData)) (errs : ErrorMap)
      (k m : String),
    m ∈ (alookup errs k).getD [] → m ∈ (alookup (dedupRecords acc errs ents).2 k).getD [] := by
  intro ents
  induction ents with
  | nil => intro acc errs k m h; exact h
  | cons e rest ih =>
    intro acc errs k m h
    simp only [dedupRecords]
    cases hl : alookup acc (idStr e) with
    | some prev => exact ih _ _ _ _ (errAdd_mono _ _ h)
    | none => exact ih _ _ _ _ h

theorem dedupRecords_skip :
    ∀ (pre : List EntityData) (acc : List (String × EntityData)) (errs : ErrorMap)
      (i : String) (rest : List EntityData),
    (∀ e ∈ pre, idStr e ≠ i) → alookup acc i = none →
    ∃ acc' errs', dedupRecords acc errs (pre ++ rest) = dedupRecords acc' errs' rest
      ∧ alookup acc' i = none := by
  intro pre
  induction pre with
  | nil => intro acc errs i rest _ h; exact ⟨acc, errs, rfl, h⟩
  | cons e pre ih =>
    intro acc errs i rest hpre h
    simp only [List.cons_append, dedupRecords]
    cases hl : alookup acc (idStr e) with
    | some prev =>
      exact ih _ _ _ _ (fun x hx => hpre x (List.mem_cons_of_mem _ hx)) h
    | none =>
      apply ih _ _ _ _ (fun x hx => hpre x (List.mem_cons_of_mem _ hx))
      rw [alookup_append, h]
      have hne : idStr e ≠ i := hpre e (by simp)
      simp [alookup, hne]

theorem dedupRecords_dup_err :
    ∀ (mid : List EntityData) (acc : List (String × EntityData)) (errs : ErrorMap)
      (r1 r2 : EntityData) (post : List EntityData),
    alookup acc (idStr r2) = some r1 →
    dupMsg (idStr r2) r2 r1
      ∈ (alookup (dedupRecords acc errs (mid ++ r2 :: post)).2 (idStr r2)).getD [] := by
  intro mid
  induction mid with
  | nil =>
    intro acc errs r1 r2 post h
    simp only [List.nil_append, dedupRecords, h]
    apply dedupRecords_err_mono
    rw [errAdd_self]
    simp
  | cons m mid ih =>
    intro acc errs r1 r2 post h
    simp only [List.cons_append, dedupRecords]
    cases hl : alookup acc (idStr m) with
    | some prev => exact ih _ _ _ _ _ h
    | none =>
      apply ih
      rw [alookup_append, h]

theorem dedupRecords_keys_nodup :
    ∀ (ents : List EntityData) (acc : List (String × EntityData)) (errs : ErrorMap),
    (akeys acc).Nodup → (akeys (dedupRecords acc errs ents).1).Nodup := by
  intro ents
  induction ents with
  | nil => intro acc errs h; exact h
  | cons e rest ih =>
    intro acc errs h
    simp only [dedupRecords]
    cases hl : alookup acc (idStr e) with
    | some prev => exact ih _ _ h
    | none =>
      apply ih
      have hni : idStr e ∉ akeys acc := (alookup_eq_none_iff _ _).1 hl
      simp only [akeys, List.map_append, List.map_cons, List.map_nil]
      rw [List.nodup_append]
      refine ⟨h, by simp, ?_⟩
      intro x hx
      simp only [List.mem_singleton]
      intro hxe
      subst hxe
      exact hni hx

/-- C7: when the input sequence contains two records with the same id
(the second at any later position), the deduplication pass keeps the
earlier record under that id and discards the later one before any
resolution, a duplicate-id error naming the later then the earlier
record's name is recorded under that id and survives to the final error
map, and the final manifest's keys are duplicate-free (at most one entity
per id). -/
theorem duplicate_id_first_wins
    (pre mid post : List EntityData) (r1 r2 : EntityData)
    (comps : List Component) (E0 : ErrorMap)
    (hid : idStr r2 = idStr r1)
    (hpre : ∀ e ∈ pre, idStr e ≠ idStr r1) :
    alookup (dedupRecords [] E0 (pre ++ r1 :: (mid ++ r2 :: post))).1 (idStr r1) = some r1
    ∧ dupMsg (idStr r2) r2 r1
        ∈ (alookup (resolveEntities comps (pre ++ r1 :: (mid ++ r2 :: post)) E0).2 (idStr r2)).getD []
    ∧ (akeys (resolveEntities comps (pre ++ r1 :: (mid ++ r2 :: post)) E0).1).Nodup := by
  obtain ⟨acc', errs', heq, hnone⟩ :=
    dedupRecords_skip pre [] E0 (idStr r1) (r1 :: (mid ++ r2 :: post)) hpre rfl
  have hstep : dedupRecords acc' errs' (r1 :: (mid ++ r2 :: post))
      = dedupRecords (acc' ++ [(idStr r1, r1)]) errs' (mid ++ r2 :: post) := by
    simp only [dedupRecords, hnone]
  have hsome : alookup (acc' ++ [(idStr r1, r1)]) (idStr r1) = some r1 := by
    rw [alookup_append, hnone]
    simp [alookup]
  have hlook : alookup (dedupRecords [] E0 (pre ++ r1 :: (mid ++ r2 :: post))).1
      (idStr r1) = some r1 := by
    rw [heq, hstep]
    exact dedupRecords_acc_mono _ _ _ _ _ hsome
  have herr : dupMsg (idStr r2) r2 r1
      ∈ (alookup (dedupRecords [] E0 (pre ++ r1 :: (mid ++ r2 :: post))).2 (idStr r2)).getD [] := by
    rw [heq, hstep]
    apply dedupRecords_dup_err
    rw [hid]
    exact hsome
  refine ⟨hlook, ?_, ?_⟩
  · exact errors_mono_runComponents _ _ herr
  · have h1 : (akeys (dedupRecords [] E0 (pre ++ r1 :: (mid ++ r2 :: post))).1).Nodup :=
      dedupRecords_keys_nodup _ _ _ (by simp [akeys])
    have h2 : (akeys ((dedupRecords [] E0 (pre ++ r1 :: (mid ++ r2 :: post))).1.map
        (fun p => (p.1, ([] : Entity))))).Nodup := by
      have hkeq : akeys ((dedupRecords [] E0 (pre ++ r1 :: (mid ++ r2 :: post))).1.map
          (fun p => (p.1, ([] : Entity))))
          = akeys (dedupRecords [] E0 (pre ++ r1 :: (mid ++ r2 :: post))).1 := by
        simp only [akeys, List.map_map]
        rfl
      rw [hkeq]
      exact h1
    exact keys_nodup_runComponents _ _ h2

/-- C7 witness: the First/Second records sharing id "a". -/
theorem duplicate_id_first_wins_witness :
    alookup (dedupRecords [] [] ([] ++ recFirst :: ([] ++ recSecond :: []))).1
        (idStr recFirst) = some recFirst
    ∧ dupMsg (idStr recSecond) recSecond recFirst
        ∈ (alookup (resolveEntities [briefComp] ([] ++ recFirst :: ([] ++ recSecond :: [])) []).2
            (idStr recSecond)).getD []
    ∧ (akeys (resolveEntities [briefComp] ([] ++ recFirst :: ([] ++ recSecond :: [])) []).1).Nodup :=
  duplicate_id_first_wins [] [] [] recFirst recSecond [briefComp] [] (by decide) (by simp)

theorem errAdd_sim {e1 e0 E : ErrorMap} (k'' msg : String)
    (hsim : ∀ k, (alookup e1 k).getD [] = (alookup E k).getD [] ++ (alookup e0 k).getD []) :
    ∀ k, (alookup (errAdd e1 k'' msg) k).getD []
      = (alookup E k).getD [] ++ (alookup (errAdd e0 k'' msg) k).getD [] := by
  intro k
  by_cases hk : k = k''
  · subst hk
    rw [errAdd_self, errAdd_self, hsim k, List.append_assoc]
  · rw [errAdd_ne e1 k'' k msg hk, errAdd_ne e0 k'' k msg hk]
    exact hsim k

theorem entityStep_sim (comp : Component) (k' : String)
    (dd : List (String × EntityData)) (out : Manifest) (passed : PassedMap)
    (e1 e0 E : ErrorMap)
    (hsim : ∀ k, (alookup e1 k).getD [] = (alookup E k).getD [] ++ (alookup e0 k).getD []) :
    (entityStep comp ⟨dd, out, passed, e1⟩ k').d = (entityStep comp ⟨dd, out, passed, e0⟩ k').d
    ∧ (entityStep comp ⟨dd, out, passed, e1⟩ k').out = (entityStep comp ⟨dd, out, passed, e0⟩ k').out
    ∧ (entityStep comp ⟨dd, out, passed, e1⟩ k').passed
        = (entityStep comp ⟨dd, out, passed, e0⟩ k').passed
    ∧ ∀ k, (alookup (entityStep comp ⟨dd, out, passed, e1⟩ k').errors k).getD []
        = (alookup E k).getD []
          ++ (alookup (entityStep comp ⟨dd, out, passed, e0⟩ k').errors k).getD [] := by
  cases ho : alookup out k' with
  | none =>
    have h1 : entityStep comp ⟨dd, out, passed, e1⟩ k' = ⟨dd, out, passed, e1⟩ := by
      simp only [entityStep, ho]
    have h0 : entityStep comp ⟨dd, out, passed, e0⟩ k' = ⟨dd, out, passed, e0⟩ := by
      simp only [entityStep, ho]
    rw [h1, h0]
    exact ⟨rfl, rfl, rfl, hsim⟩
  | some parent =>
    cases hdd : alookup dd k' with
    | none =>
      have h1 : entityStep comp ⟨dd, out, passed, e1⟩ k' = ⟨dd, out, passed, e1⟩ := by
        simp only [entityStep, ho, hdd]
      have h0 : entityStep comp ⟨dd, out, passed, e0⟩ k' = ⟨dd, out, passed, e0⟩ := by
        simp only [entityStep, ho, hdd]
      rw [h1, h0]
      exact ⟨rfl, rfl, rfl, hsim⟩
    | some data =>
      cases hres : Component.resolve comp ⟨dd, out, passed, parent, k', data⟩ with
      | ok pr =>
        have h1 : entityStep comp ⟨dd, out, passed, e1⟩ k'
            = ⟨dd, aset out k' pr.2, pr.1, e1⟩ := by
          simp only [entityStep, ho, hdd, hres]
        have h0 : entityStep comp ⟨dd, out, passed, e0⟩ k'
            = ⟨dd, aset out k' pr.2, pr.1, e0⟩ := by
          simp only [entityStep, ho, hdd, hres]
        rw [h1, h0]
        exact ⟨rfl, rfl, rfl, hsim⟩
      | error msg =>
        have h1 : entityStep comp ⟨dd, out, passed, e1⟩ k'
            = ⟨aerase dd k', aerase out k',
               passed.map (fun p => (p.1, p.2.erase k')), errAdd e1 k' msg⟩ := by
          simp only [entityStep, ho, hdd, hres]
        have h0 : entityStep comp ⟨dd, out, passed, e0⟩ k'
            = ⟨aerase dd k', aerase out k',
               passed.map (fun p => (p.1, p.2.erase k')), errAdd e0 k' msg⟩ := by
          simp only [entityStep, ho, hdd, hres]
        rw [h1, h0]
        exact ⟨rfl, rfl, rfl, errAdd_sim k' msg hsim⟩

theorem foldl_sim (comp : Component) :
    ∀ (ks : List String) (dd : List (String × EntityData)) (out : Manifest)
      (passed : PassedMap) (e1 e0 E : ErrorMap),
    (∀ k, (alookup e1 k).getD [] = (alookup E k).getD [] ++ (alookup e0 k).getD []) →
    (ks.foldl (entityStep comp) ⟨dd, out, passed, e1⟩).d
        = (ks.foldl (entityStep comp) ⟨dd, out, passed, e0⟩).d
    ∧ (ks.foldl (entityStep comp) ⟨dd, out, passed, e1⟩).out
        = (ks.foldl (entityStep comp) ⟨dd, out, passed, e0⟩).out
    ∧ (ks.foldl (entityStep comp) ⟨dd, out, passed, e1⟩).passed
        = (ks.foldl (entityStep comp) ⟨dd, out, passed, e0⟩).passed
    ∧ ∀ k, (alookup (ks.foldl (entityStep comp) ⟨dd, out, passed, e1⟩).errors k).getD []
        = (alookup E k).getD []
          ++ (alookup (ks.foldl (entityStep comp) ⟨dd, out, passed, e0⟩).errors k).getD [] := by
  intro ks
  induction ks with
  | nil =>
    intro dd out passed e1 e0 E hsim
    exact ⟨rfl, rfl, rfl, hsim⟩
  | cons k' ks ih =>
    intro dd out passed e1 e0 E hsim
    obtain ⟨hde, houte, hpe, hse⟩ := entityStep_sim comp k' dd out passed e1 e0 E hsim
    have h1 : entityStep comp ⟨dd, out, passed, e1⟩ k'
        = ⟨(entityStep comp ⟨dd, out, passed, e0⟩ k').d,
           (entityStep comp ⟨dd, out, passed, e0⟩ k').out,
           (entityStep comp ⟨dd, out, passed, e0⟩ k').passed,
           (entityStep comp ⟨dd, out, passed, e1⟩ k').errors⟩ := by
      rw [← hde, ← houte, ← hpe]
    have h0 : entityStep comp ⟨dd, out, passed, e0⟩ k'
        = ⟨(entityStep comp ⟨dd, out, passed, e0⟩ k').d,
           (entityStep comp ⟨dd, out, passed, e0⟩ k').out,
           (entityStep comp ⟨dd, out, passed, e0⟩ k').passed,
           (entityStep comp ⟨dd, out, passed, e0⟩ k').errors⟩ := rfl
    simp only [List.foldl_cons]
    rw [h1, h0]
    exact ih _ _ _ _ _ _ hse

theorem componentPass_sim (comp : Component)
    (dd : List (String × EntityData)) (out : Manifest) (passed : PassedMap)
    (e1 e0 E : ErrorMap)
    (hsim : ∀ k, (alookup e1 k).getD [] = (alookup E k).getD [] ++ (alookup e0 k).getD []) :
    (componentPass comp ⟨dd, out, passed, e1⟩).d = (componentPass comp ⟨dd, out, passed, e0⟩).d
    ∧ (componentPass comp ⟨dd, out, passed, e1⟩).out
        = (componentPass comp ⟨dd, out, passed, e0⟩).out
    ∧ (componentPass comp ⟨dd, out, passed, e1⟩).passed
        = (componentPass comp ⟨dd, out, passed, e0⟩).passed
    ∧ ∀ k, (alookup (componentPass comp ⟨dd, out, passed, e1⟩).errors k).getD []
        = (alookup E k).getD []
          ++ (alookup (componentPass comp ⟨dd, out, passed, e0⟩).errors k).getD [] := by
  have h1 : componentPass comp ⟨dd, out, passed, e1⟩
      = (akeys out).foldl (entityStep comp) ⟨dd, out, aset passed comp.KEY [], e1⟩ := rfl
  have h0 : componentPass comp ⟨dd, out, passed, e0⟩
      = (akeys out).foldl (entityStep comp) ⟨dd, out, aset passed comp.KEY [], e0⟩ := rfl
  rw [h1, h0]
  exact foldl_sim comp (akeys out) dd out (aset passed comp.KEY []) e1 e0 E hsim

theorem runComponents_sim :
    ∀ (order : List Component) (dd : List (String × EntityData)) (out : Manifest)
      (passed : PassedMap) (e1 e0 E : ErrorMap),
    (∀ k, (alookup e1 k).getD [] = (alookup E k).getD [] ++ (alookup e0 k).getD []) →
    (runComponents order ⟨dd, out, passed, e1⟩).d
        = (runComponents order ⟨dd, out, passed, e0⟩).d
    ∧ (runComponents order ⟨dd, out, passed, e1⟩).out
        = (runComponents order ⟨dd, out, passed, e0⟩).out
    ∧ (runComponents order ⟨dd, out, passed, e1⟩).passed
        = (runComponents order ⟨dd, out, passed, e0⟩).passed
    ∧ ∀ k, (alookup (runComponents order ⟨dd, out, passed, e1⟩).errors k).getD []
        = (alookup E k).getD []
          ++ (alookup (runComponents order ⟨dd, out, passed, e0⟩).errors k).getD [] := by
  intro order
  induction order with
  | nil =>
    intro dd out passed e1 e0 E hsim
    exact ⟨rfl, rfl, rfl, hsim⟩
  | cons c cs ih =>
    intro dd out passed e1 e0 E hsim
    obtain ⟨hde, houte, hpe, hse⟩ := componentPass_sim c dd out passed e1 e0 E hsim
    have h1 : componentPass c ⟨dd, out, passed, e1⟩
        = ⟨(componentPass c ⟨dd, out, passed, e0⟩).d,
           (componentPass c ⟨dd, out, passed, e0⟩).out,
           (componentPass c ⟨dd, out, passed, e0⟩).passed,
           (componentPass c ⟨dd, out, passed, e1⟩).errors⟩ := by
      rw [← hde, ← houte, ← hpe]
    have h0 : componentPass c ⟨dd, out, passed, e0⟩
        = ⟨(componentPass c ⟨dd, out, passed, e0⟩).d,
           (componentPass c ⟨dd, out, passed, e0⟩).out,
           (componentPass c ⟨dd, out, passed, e0⟩).passed,
           (componentPass c ⟨dd, out, passed, e0⟩).errors⟩ := rfl
    have hrun1 : runComponents (c :: cs) ⟨dd, out, passed, e1⟩
        = runComponents cs (componentPass c ⟨dd, out, passed, e1⟩) := rfl
    have hrun0 : runComponents (c :: cs) ⟨dd, out, passed, e0⟩
        = runComponents cs (componentPass c ⟨dd, out, passed, e0⟩) := rfl
    rw [hrun1, hrun0, h1, h0]
    exact ih _ _ _ _ _ _ hse

theorem dedup_sim :
    ∀ (ents : List EntityData) (acc : List (String × EntityData)) (e1 e0 E : ErrorMap),
    (∀ k, (alookup e1 k).getD [] = (alookup E k).getD [] ++ (alookup e0 k).getD []) →
    (dedupRecords acc e1 ents).1 = (dedupRecords acc e0 ents).1
    ∧ ∀ k, (alookup (dedupRecords acc e1 ents).2 k).getD []
        = (alookup E k).getD [] ++ (alookup (dedupRecords acc e0 ents).2 k).getD [] := by
  intro ents
  induction ents with
  | nil =>
    intro acc e1 e0 E hsim
    exact ⟨rfl, hsim⟩
  | cons e rest ih =>
    intro acc e1 e0 E hsim
    simp only [dedupRecords]
    cases hl : alookup acc (idStr e) with
    | some prev => exact ih _ _ _ _ (errAdd_sim _ _ hsim)
    | none => exact ih _ _ _ _ hsim

/-- C4 (amended): the resolver never reads the error accumulator, so the
manifest of a run is independent of the accumulator's initial contents,
and each run appends the same per-id batch of errors to whatever was
already recorded.  Hence two runs produce identical manifests always, and
identical error maps exactly when the accumulator is cleared between them;
run twice without clearing, the second run's error map carries the batch
twice (see the counterexample). -/
theorem resolver_independent_of_error_state
    (comps : List Component) (ents : List EntityData) (E : ErrorMap) :
    (resolveEntities comps ents E).1 = (resolveEntities comps ents []).1
    ∧ ∀ k, (alookup (resolveEntities comps ents E).2 k).getD []
        = (alookup E k).getD [] ++ (alookup (resolveEntities comps ents []).2 k).getD [] := by
  have hsim0 : ∀ k, (alookup E k).getD []
      = (alookup E k).getD [] ++ (alookup ([] : ErrorMap) k).getD [] := by
    intro k; simp [alookup]
  obtain ⟨hdeq, hsim1⟩ := dedup_sim ents [] E [] E hsim0
  have h1 : resolveEntities comps ents E
      = ((runComponents (Component.all comps)
            ⟨(dedupRecords [] E ents).1,
             (dedupRecords [] E ents).1.map (fun p => (p.1, [])), [],
             (dedupRecords [] E ents).2⟩).out,
         (runComponents (Component.all comps)
            ⟨(dedupRecords [] E ents).1,
             (dedupRecords [] E ents).1.map (fun p => (p.1, [])), [],
             (dedupRecords [] E ents).2⟩).errors) := rfl
  have h0 : resolveEntities comps ents []
      = ((runComponents (Component.all comps)
            ⟨(dedupRecords [] [] ents).1,
             (dedupRecords [] [] ents).1.map (fun p => (p.1, [])), [],
             (dedupRecords [] [] ents).2⟩).out,
         (runComponents (Component.all comps)
            ⟨(dedupRecords [] [] ents).1,
             (dedupRecords [] [] ents).1.map (fun p => (p.1, [])), [],
             (dedupRecords [] [] ents).2⟩).errors) := rfl
  obtain ⟨hd', hout', hp', hs'⟩ := runComponents_sim (Component.all comps)
    (dedupRecords [] [] ents).1 ((dedupRecords [] [] ents).1.map (fun p => (p.1, []))) []
    (dedupRecords [] E ents).2 (dedupRecords [] [] ents).2 E hsim1
  rw [h1, h0]
  rw [hdeq]
  exact ⟨hout', hs'⟩
